import Mathlib

/-
Verification of the metric record type in src/src/modules/prober/manager/metric.go.

Modelling conventions:
- Go strings are byte sequences; they are embedded as lists of natural numbers
  (each entry a byte value), and Go's string comparison is byte-wise
  lexicographic order.
- Go's uint64 arithmetic in the FNV-1a hash is embedded as Nat arithmetic with
  an explicit reduction modulo 2^64 after each multiplication.
- Go's time.Time is embedded as an integer timestamp: no claim inspects the
  structure of a time value, only its equality and propagation.
- Go's interface{} inputs to convertField are embedded as an inductive type
  enumerating exactly the dynamic types the source's type switch handles.
-/

namespace Prober

/-- A Go string or byte slice: a sequence of byte values. -/
abbrev Str := List Nat

/-- Go's string comparison a < b: byte-wise lexicographic order. -/
def strLt : Str → Str → Bool
  | _, [] => false
  | [], _ :: _ => true
  | a :: as, b :: bs => a < b || (a == b && strLt as bs)

/-- Abstract model of a Go float64 value. The claims settled in this file
depend only on which inputs convert successfully and on the propagation of the
converted value, never on IEEE-754 arithmetic, so a double value is represented
by its provenance: an integer-to-double conversion or a successful string
parse. -/
inductive GoFloat where
  | ofInt (n : Int) : GoFloat
  | ofParse (s : Str) : GoFloat
deriving DecidableEq

/-- The scalar dynamic types handled by convertField's type switch (source
lines 289-318), each carrying its value. Floating-point payloads (float64,
float32 widened to float64) are carried as GoFloat. -/
inductive GoScalar where
  | f64 (x : GoFloat) : GoScalar
  | i64 (n : Int) : GoScalar
  | str (s : Str) : GoScalar
  | boolean (b : Bool) : GoScalar
  | int (n : Int) : GoScalar
  | uint (n : Nat) : GoScalar
  | u64 (n : Nat) : GoScalar
  | bytes (s : Str) : GoScalar
  | i32 (n : Int) : GoScalar
  | i16 (n : Int) : GoScalar
  | i8 (n : Int) : GoScalar
  | u32 (n : Nat) : GoScalar
  | u16 (n : Nat) : GoScalar
  | u8 (n : Nat) : GoScalar
  | f32 (x : GoFloat) : GoScalar
deriving DecidableEq

/-- A value of Go's interface{} as seen by convertField: one of the supported
scalar types, a typed pointer to one of them (possibly nil), or any other
dynamic type (composite, unsupported pointer, nil interface), which the
switch's default case rejects (source lines 319-381). -/
inductive GoValue where
  | scalar (v : GoScalar) : GoValue
  | ptr (v : Option GoScalar) : GoValue
  | other : GoValue
deriving DecidableEq

/-- Byte is an ASCII decimal digit. -/
def isDigit (b : Nat) : Bool := 48 ≤ b && b ≤ 57

/-- Drop one optional leading ASCII sign (+ is 43, - is 45). -/
def stripSign : Str → Str
  | 43 :: rest => rest
  | 45 :: rest => rest
  | s => s

/-- Nonempty run of decimal digits, optionally signed (exponent part). -/
def expDigits (s : Str) : Bool :=
  let t := stripSign s
  !t.isEmpty && t.all isDigit

/-- Optional exponent part: empty, or e/E followed by optionally signed
digits (e is 101, E is 69). -/
def expOk : Str → Bool
  | [] => true
  | 101 :: rest => expDigits rest
  | 69 :: rest => expDigits rest
  | _ => false

/-- Mantissa followed by optional exponent: digits, digits.digits, digits.,
or .digits, with at least one digit overall (the dot is byte 46). -/
def mantExpOk (s : Str) : Bool :=
  let d1 := s.takeWhile isDigit
  match s.dropWhile isDigit with
  | 46 :: r2 =>
      let d2 := r2.takeWhile isDigit
      (!d1.isEmpty || !d2.isEmpty) && expOk (r2.dropWhile isDigit)
  | r1 => !d1.isEmpty && expOk r1

/-- Modelled from the spec: strconv.ParseFloat of the Go standard library is
not part of this repository's sources; per spec section 4.2 it is modelled as
accepting a base-10 floating-point literal (optional sign, decimal mantissa,
optional decimal exponent) and yielding the parsed double, failure otherwise.
The parsed double is kept abstract as GoFloat.ofParse of the input; no theorem
in this file depends on the exact acceptance domain or value. -/
def goParseFloat (s : Str) : Option GoFloat :=
  if mantExpOk (stripSign s) then some (GoFloat.ofParse s) else none

/-- Source atof (lines 385-391): ParseFloat with the error collapsed to nil. -/
def atof (s : Str) : Option GoFloat := goParseFloat s

/-- Source btof (lines 393-398): true maps to 1, false to 0. -/
def btof (b : Bool) : Option GoFloat :=
  if b then some (GoFloat.ofInt 1) else some (GoFloat.ofInt 0)

/-- The per-scalar-type conversion bodies of convertField's switch: numeric
widths convert to double, strings and byte slices go through atof, booleans
through btof. -/
def convertScalar : GoScalar → Option GoFloat
  | .f64 x => some x
  | .i64 n => some (.ofInt n)
  | .str s => atof s
  | .boolean b => btof b
  | .int n => some (.ofInt n)
  | .uint n => some (.ofInt n)
  | .u64 n => some (.ofInt n)
  | .bytes s => atof s
  | .i32 n => some (.ofInt n)
  | .i16 n => some (.ofInt n)
  | .i8 n => some (.ofInt n)
  | .u32 n => some (.ofInt n)
  | .u16 n => some (.ofInt n)
  | .u8 n => some (.ofInt n)
  | .f32 x => some x

/-- Source convertField (lines 287-383): scalar cases convert directly,
pointer cases dereference non-nil pointers and convert the pointee, nil
pointers and every other dynamic type yield nil (none). -/
def convertField : GoValue → Option GoFloat
  | .scalar v => convertScalar v
  | .ptr (some v) => convertScalar v
  | .ptr none => none
  | .other => none

/-- telegraf.ValueType: the closed set of value kinds (spec section 3);
the type lives in the external telegraf package, carried but uninterpreted. -/
inductive ValueType where
  | Untyped : ValueType
  | Counter : ValueType
  | Gauge : ValueType
  | Summary : ValueType
  | Histogram : ValueType
deriving DecidableEq

/-- telegraf.Tag: a key/value pair of strings. -/
structure Tag where
  key : Str
  value : Str
deriving DecidableEq

/-- telegraf.Field: a key and the stored interface{} value, which after
conversion is either a float64 or nil (the no-value marker), hence
Option GoFloat. -/
structure Field where
  key : Str
  value : Option GoFloat
deriving DecidableEq

/-- The metric struct (source lines 13-21). -/
structure Metric where
  name : Str
  tags : List Tag
  fields : List Field
  tm : Int
  tp : ValueType
  aggregate : Bool
deriving DecidableEq

/-- The loop of AddTag (source lines 143-161): walk the sorted tag list; while
key is greater than the current key, continue; on an equal key overwrite that
entry's value; otherwise insert the new tag at the current position; if the
loop finishes, append at the end. -/
def addTagLoop (key value : Str) : List Tag → List Tag
  | [] => [⟨key, value⟩]
  | t :: rest =>
    if strLt t.key key then t :: addTagLoop key value rest
    else if key = t.key then ⟨t.key, value⟩ :: rest
    else ⟨key, value⟩ :: t :: rest

/-- The loop of RemoveTag (source lines 181-190): remove the first entry whose
key matches; no match leaves the list unchanged. -/
def removeTagLoop (key : Str) : List Tag → List Tag
  | [] => []
  | t :: rest => if t.key = key then rest else t :: removeTagLoop key rest

/-- The loop of AddField (source lines 192-200): replace in place the first
entry with a matching key by a freshly converted value, else append a freshly
converted entry. -/
def addFieldLoop (key : Str) (value : GoValue) : List Field → List Field
  | [] => [⟨key, convertField value⟩]
  | f :: rest =>
    if key = f.key then ⟨key, convertField value⟩ :: rest
    else f :: addFieldLoop key value rest

/-- The loop of RemoveField (source lines 220-229). -/
def removeFieldLoop (key : Str) : List Field → List Field
  | [] => []
  | f :: rest => if f.key = key then rest else f :: removeFieldLoop key rest

/-- The scan of HasField (source lines 202-209). -/
def hasFieldLoop (key : Str) : List Field → Bool
  | [] => false
  | f :: rest => if f.key = key then true else hasFieldLoop key rest

/-- The scan of GetField (source lines 211-218): the stored value and true on
a hit, nil and false otherwise; embedded as Option of the stored value. -/
def getFieldLoop (key : Str) : List Field → Option (Option GoFloat)
  | [] => none
  | f :: rest => if f.key = key then some f.value else getFieldLoop key rest

def Metric.AddTag (m : Metric) (key value : Str) : Metric :=
  { m with tags := addTagLoop key value m.tags }

def Metric.RemoveTag (m : Metric) (key : Str) : Metric :=
  { m with tags := removeTagLoop key m.tags }

def Metric.AddField (m : Metric) (key : Str) (value : GoValue) : Metric :=
  { m with fields := addFieldLoop key value m.fields }

def Metric.RemoveField (m : Metric) (key : Str) : Metric :=
  { m with fields := removeFieldLoop key m.fields }

def Metric.HasField (m : Metric) (key : Str) : Bool :=
  hasFieldLoop key m.fields

def Metric.GetField (m : Metric) (key : Str) : Option (Option GoFloat) :=
  getFieldLoop key m.fields

def Metric.SetTime (m : Metric) (t : Int) : Metric := { m with tm := t }

/-- Source SetAggregate (lines 255-257): assigns the literal true, ignoring
the argument. -/
def Metric.SetAggregate (m : Metric) (_b : Bool) : Metric :=
  { m with aggregate := true }

def Metric.IsAggregate (m : Metric) : Bool := m.aggregate

/-- Source Type (lines 127-129): the stored value kind. -/
def Metric.Type' (m : Metric) : ValueType := m.tp

/-- Insert a tag before the first entry with a strictly greater key. Models
one step of sort.Slice's effect in NewMetric (source line 51): with distinct
keys, as a Go map guarantees, the ascending arrangement is unique, so any
sorting algorithm produces the result of this insertion sort. -/
def insertTagSorted (t : Tag) : List Tag → List Tag
  | [] => [t]
  | u :: rest =>
    if strLt t.key u.key then t :: u :: rest else u :: insertTagSorted t rest

/-- Sort a tag list ascending by key (models sort.Slice at source line 51). -/
def sortTags : List Tag → List Tag
  | [] => []
  | t :: rest => insertTagSorted t (sortTags rest)

/-- NewMetric (source lines 23-66). The Go tags and fields arguments are maps;
they are embedded as association lists (a map's key uniqueness becomes a
Nodup hypothesis where a claim needs it). The variadic tp argument is a list,
its first element used when present, Untyped otherwise. Tags are collected and
sorted by key; each field value is converted, unconvertible values are skipped,
and convertible ones are handed to AddField as the converted float64. The
error return of the source is always nil and is omitted. The field loop
(source lines 54-63) is factored out as newFieldsFold: convert each value,
skip nil results, and hand convertible ones to AddField as the converted
float64. -/
def newFieldsFold (fields : List (Str × GoValue)) (m0 : Metric) : Metric :=
  fields.foldl (fun m p =>
    match convertField p.2 with
    | none => m
    | some r => m.AddField p.1 (GoValue.scalar (GoScalar.f64 r))) m0

def NewMetric (name : Str) (tags : List (Str × Str)) (fields : List (Str × GoValue))
    (tm : Int) (tp : List ValueType) : Metric :=
  let vtype := match tp with
    | [] => ValueType.Untyped
    | t :: _ => t
  let m0 : Metric :=
    { name := name
      tags := sortTags (tags.map fun p => ⟨p.1, p.2⟩)
      fields := []
      tm := tm
      tp := vtype
      aggregate := false }
  newFieldsFold fields m0

/-- The FNV-1a 64-bit offset basis (hash/fnv). -/
def fnvOffset64 : Nat := 14695981039346656037

/-- The FNV-1a 64-bit prime (hash/fnv). -/
def fnvPrime64 : Nat := 1099511628211

/-- One byte of FNV-1a: xor the byte in, multiply by the prime, in uint64
arithmetic. -/
def fnv64Step (h b : Nat) : Nat := ((h ^^^ b) * fnvPrime64) % 2 ^ 64

/-- Model of hash/fnv sum64a.Write: absorb a byte sequence. -/
def fnvWrite (h : Nat) (bs : Str) : Nat := bs.foldl fnv64Step h

/-- Source HashID (lines 263-274): a fresh FNV-1a 64 accumulator absorbs the
name, a newline, then for each stored tag its key, newline, value, newline;
Sum64 is the accumulator itself. -/
def Metric.HashID (m : Metric) : Nat :=
  let h := fnvWrite (fnvWrite fnvOffset64 m.name) [10]
  m.tags.foldl
    (fun acc t => fnvWrite (fnvWrite (fnvWrite (fnvWrite acc t.key) [10]) t.value) [10]) h

/-- FNV-1a 64 digest of a whole byte sequence, as the spec describes the
algorithm: start from the offset basis and absorb every byte in order. -/
def fnv1a64 (bs : Str) : Nat := fnvWrite fnvOffset64 bs

/-- The byte sequence the spec says HashID digests: name, newline, then for
each tag in stored order key, newline, value, newline. -/
def specHashBytes (m : Metric) : Str :=
  m.name ++ [10] ++ m.tags.foldr (fun t acc => t.key ++ [10] ++ t.value ++ [10] ++ acc) []

/- Library of facts about the embedding. -/

theorem fnvWrite_append (h : Nat) (a b : Str) :
    fnvWrite h (a ++ b) = fnvWrite (fnvWrite h a) b := by
  simp [fnvWrite, List.foldl_append]

theorem hashTagsFold (l : List Tag) : ∀ h : Nat,
    l.foldl
      (fun acc t => fnvWrite (fnvWrite (fnvWrite (fnvWrite acc t.key) [10]) t.value) [10]) h
      = fnvWrite h (l.foldr (fun t acc => t.key ++ [10] ++ t.value ++ [10] ++ acc) []) := by
  induction l with
  | nil => intro h; rfl
  | cons t rest ih =>
    intro h
    simp only [List.foldl_cons, List.foldr_cons, ih, fnvWrite_append]

theorem newFieldsFold_cons (p : Str × GoValue) (rest : List (Str × GoValue))
    (m : Metric) :
    newFieldsFold (p :: rest) m =
      newFieldsFold rest
        (match convertField p.2 with
         | none => m
         | some r => m.AddField p.1 (GoValue.scalar (GoScalar.f64 r))) := rfl

theorem newFieldsFold_preserves (l : List (Str × GoValue)) : ∀ m : Metric,
    (newFieldsFold l m).name = m.name ∧ (newFieldsFold l m).tags = m.tags ∧
    (newFieldsFold l m).tm = m.tm ∧ (newFieldsFold l m).tp = m.tp ∧
    (newFieldsFold l m).aggregate = m.aggregate := by
  induction l with
  | nil => exact fun m => ⟨rfl, rfl, rfl, rfl, rfl⟩
  | cons p rest ih =>
    intro m
    rw [newFieldsFold_cons]
    cases hc : convertField p.2 with
    | none => exact ih m
    | some r => exact ih (m.AddField p.1 (GoValue.scalar (GoScalar.f64 r)))

/-- C1: HashID is exactly the 64-bit FNV-1a digest, from the standard offset
basis and prime, of the name bytes, a newline, then for each tag in stored
order its key bytes, a newline, its value bytes, a newline. -/
theorem hashID_is_fnv1a_of_spec_bytes (m : Metric) :
    m.HashID = fnv1a64 (specHashBytes m) := by
  simp only [Metric.HashID, fnv1a64, specHashBytes, hashTagsFold, fnvWrite_append]

/-- C4: SetAggregate sets the aggregate flag to true whatever its argument
is; in particular after SetAggregate false, IsAggregate returns true. -/
theorem setAggregate_ignores_argument (m : Metric) (b : Bool) :
    (m.SetAggregate b).IsAggregate = true ∧
    (m.SetAggregate false).IsAggregate = true :=
  ⟨rfl, rfl⟩

/-- C10: NewMetric without a value-kind argument yields a record whose kind
accessor returns Untyped; with kinds supplied it returns the first one. -/
theorem newMetric_valueKind (name : Str) (tags : List (Str × Str))
    (fields : List (Str × GoValue)) (tm : Int) (k : ValueType)
    (rest : List ValueType) :
    (NewMetric name tags fields tm []).Type' = ValueType.Untyped ∧
    (NewMetric name tags fields tm (k :: rest)).Type' = k := by
  constructor <;>
    simp [NewMetric, Metric.Type', (newFieldsFold_preserves fields _).2.2.2.1]

/-- A call that mutates only fields or the timestamp: the mutations the hash
claim quantifies over. -/
inductive FOp where
  | addF (key : Str) (value : GoValue) : FOp
  | removeF (key : Str) : FOp
  | setT (t : Int) : FOp

def applyFOp (m : Metric) : FOp → Metric
  | .addF k v => m.AddField k v
  | .removeF k => m.RemoveField k
  | .setT t => m.SetTime t

def applyFOps (m : Metric) (ops : List FOp) : Metric := ops.foldl applyFOp m

theorem applyFOp_name_tags (m : Metric) (op : FOp) :
    (applyFOp m op).name = m.name ∧ (applyFOp m op).tags = m.tags := by
  cases op <;> exact ⟨rfl, rfl⟩

theorem applyFOps_name_tags (ops : List FOp) : ∀ m : Metric,
    (applyFOps m ops).name = m.name ∧ (applyFOps m ops).tags = m.tags := by
  induction ops with
  | nil => exact fun m => ⟨rfl, rfl⟩
  | cons op rest ih =>
    intro m
    have h1 := applyFOp_name_tags m op
    have h2 := ih (applyFOp m op)
    exact ⟨h2.1.trans h1.1, h2.2.trans h1.2⟩

theorem hashID_congr (m1 m2 : Metric) (hn : m1.name = m2.name)
    (ht : m1.tags = m2.tags) : m1.HashID = m2.HashID := by
  simp [Metric.HashID, hn, ht]

/-- C6: HashID depends only on the name and the tag sequence: any sequence of
AddField, RemoveField and SetTime calls leaves it unchanged; records with
equal names and equal tag sequences hash identically; and concretely the
record named cpu with tag host=a hashes differently from host=b. -/
theorem hashID_depends_only_on_name_tags :
    (∀ (m : Metric) (ops : List FOp), (applyFOps m ops).HashID = m.HashID) ∧
    (∀ m1 m2 : Metric, m1.name = m2.name → m1.tags = m2.tags →
      m1.HashID = m2.HashID) ∧
    (NewMetric [99, 112, 117] [([104, 111, 115, 116], [97])] [] 0 []).HashID ≠
      (NewMetric [99, 112, 117] [([104, 111, 115, 116], [98])] [] 0 []).HashID := by
  refine ⟨fun m ops => ?_, fun m1 m2 hn ht => hashID_congr m1 m2 hn ht, by decide⟩
  exact hashID_congr _ _ (applyFOps_name_tags ops m).1 (applyFOps_name_tags ops m).2

/-- Witness for C6 at concrete inputs: two records sharing name and tags but
differing in fields, timestamp, kind and flag hash identically, and a
field-and-time mutation sequence leaves a concrete record's hash unchanged. -/
theorem hashID_depends_only_on_name_tags_witness :
    Metric.HashID ⟨[99], [⟨[104], [97]⟩], [⟨[120], none⟩], 3, .Counter, true⟩ =
      Metric.HashID ⟨[99], [⟨[104], [97]⟩], [], 7, .Untyped, false⟩ ∧
    (applyFOps ⟨[99], [⟨[104], [97]⟩], [], 7, .Untyped, false⟩
        [.addF [120] (.scalar (.i64 4)), .setT 9, .removeF [120]]).HashID =
      Metric.HashID ⟨[99], [⟨[104], [97]⟩], [], 7, .Untyped, false⟩ :=
  ⟨hashID_depends_only_on_name_tags.2.1 _ _ rfl rfl,
   hashID_depends_only_on_name_tags.1 _ _⟩

theorem removeTagLoop_of_not_mem (key : Str) : ∀ l : List Tag,
    (∀ t ∈ l, t.key ≠ key) → removeTagLoop key l = l := by
  intro l
  induction l with
  | nil => intro _; rfl
  | cons t rest ih =>
    intro h
    have ht : t.key ≠ key := h t (List.mem_cons_self t rest)
    simp only [removeTagLoop, if_neg ht]
    rw [ih fun u hu => h u (List.mem_cons_of_mem t hu)]

theorem removeTagLoop_first (key : Str) : ∀ (pre : List Tag) (t : Tag) (post : List Tag),
    t.key = key → (∀ u ∈ pre, u.key ≠ key) →
    removeTagLoop key (pre ++ t :: post) = pre ++ post := by
  intro pre
  induction pre with
  | nil =>
    intro t post ht _
    simp only [List.nil_append, removeTagLoop, if_pos ht]
  | cons u pre ih =>
    intro t post ht h
    have hu : u.key ≠ key := h u (List.mem_cons_self u pre)
    simp only [List.cons_append, removeTagLoop, if_neg hu]
    exact congrArg (u :: ·) (ih t post ht fun w hw => h w (List.mem_cons_of_mem u hw))

theorem removeFieldLoop_of_not_mem (key : Str) : ∀ l : List Field,
    (∀ f ∈ l, f.key ≠ key) → removeFieldLoop key l = l := by
  intro l
  induction l with
  | nil => intro _; rfl
  | cons f rest ih =>
    intro h
    have hf : f.key ≠ key := h f (List.mem_cons_self f rest)
    simp only [removeFieldLoop, if_neg hf]
    rw [ih fun u hu => h u (List.mem_cons_of_mem f hu)]

theorem removeFieldLoop_first (key : Str) :
    ∀ (pre : List Field) (f : Field) (post : List Field),
    f.key = key → (∀ u ∈ pre, u.key ≠ key) →
    removeFieldLoop key (pre ++ f :: post) = pre ++ post := by
  intro pre
  induction pre with
  | nil =>
    intro f post hf _
    simp only [List.nil_append, removeFieldLoop, if_pos hf]
  | cons u pre ih =>
    intro f post hf h
    have hu : u.key ≠ key := h u (List.mem_cons_self u pre)
    simp only [List.cons_append, removeFieldLoop, if_neg hu]
    exact congrArg (u :: ·) (ih f post hf fun w hw => h w (List.mem_cons_of_mem u hw))

/-- C8: RemoveTag and RemoveField drop exactly the first entry carrying the
key, keeping every other entry in its previous relative order, and leave the
record entirely unchanged when the key is absent. -/
theorem remove_first_occurrence_spec (m : Metric) (key : Str) :
    ((∀ t ∈ m.tags, t.key ≠ key) → m.RemoveTag key = m) ∧
    (∀ (pre : List Tag) (t : Tag) (post : List Tag),
      m.tags = pre ++ t :: post → t.key = key → (∀ u ∈ pre, u.key ≠ key) →
      (m.RemoveTag key).tags = pre ++ post) ∧
    ((∀ f ∈ m.fields, f.key ≠ key) → m.RemoveField key = m) ∧
    (∀ (pre : List Field) (f : Field) (post : List Field),
      m.fields = pre ++ f :: post → f.key = key → (∀ u ∈ pre, u.key ≠ key) →
      (m.RemoveField key).fields = pre ++ post) := by
  refine ⟨fun h => ?_, fun pre t post he ht h => ?_, fun h => ?_,
    fun pre f post he hf h => ?_⟩
  · show { m with tags := removeTagLoop key m.tags } = m
    rw [removeTagLoop_of_not_mem key m.tags h]
  · show removeTagLoop key m.tags = pre ++ post
    rw [he, removeTagLoop_first key pre t post ht h]
  · show { m with fields := removeFieldLoop key m.fields } = m
    rw [removeFieldLoop_of_not_mem key m.fields h]
  · show removeFieldLoop key m.fields = pre ++ post
    rw [he, removeFieldLoop_first key pre f post hf h]

/-- Witness for C8 at a concrete record: removing the present key b drops
exactly its entry, removing the absent key z changes nothing, and likewise for
a field. -/
theorem remove_first_occurrence_spec_witness :
    (Metric.RemoveTag ⟨[110], [⟨[97], [49]⟩, ⟨[98], [50]⟩], [⟨[99], none⟩], 0,
        .Untyped, false⟩ [98]).tags = [⟨[97], [49]⟩] ∧
    Metric.RemoveTag ⟨[110], [⟨[97], [49]⟩, ⟨[98], [50]⟩], [⟨[99], none⟩], 0,
        .Untyped, false⟩ [122] =
      ⟨[110], [⟨[97], [49]⟩, ⟨[98], [50]⟩], [⟨[99], none⟩], 0, .Untyped, false⟩ ∧
    (Metric.RemoveField ⟨[110], [⟨[97], [49]⟩, ⟨[98], [50]⟩], [⟨[99], none⟩], 0,
        .Untyped, false⟩ [99]).fields = [] :=
  ⟨(remove_first_occurrence_spec _ [98]).2.1 [⟨[97], [49]⟩] ⟨[98], [50]⟩ []
      (by decide) (by decide) (by decide),
   (remove_first_occurrence_spec _ [122]).1 (by decide),
   (remove_first_occurrence_spec _ [99]).2.2.2 [] ⟨[99], none⟩ []
      (by decide) (by decide) (by decide)⟩

theorem hasFieldLoop_eq_isSome (key : Str) : ∀ l : List Field,
    hasFieldLoop key l = (getFieldLoop key l).isSome := by
  intro l
  induction l with
  | nil => rfl
  | cons f rest ih =>
    by_cases hk : f.key = key
    · simp [hasFieldLoop, getFieldLoop, hk]
    · simp [hasFieldLoop, getFieldLoop, hk, ih]

theorem getFieldLoop_addFieldLoop_self (key : Str) (v : GoValue) : ∀ l : List Field,
    getFieldLoop key (addFieldLoop key v l) = some (convertField v) := by
  intro l
  induction l with
  | nil => simp [addFieldLoop, getFieldLoop]
  | cons f rest ih =>
    by_cases hk : key = f.key
    · simp [addFieldLoop, getFieldLoop, hk]
    · simp only [addFieldLoop, if_neg hk, getFieldLoop, if_neg (Ne.symm hk)]
      exact ih

theorem hasFieldLoop_addFieldLoop_other (k key : Str) (v : GoValue) (hne : key ≠ k) :
    ∀ l : List Field, hasFieldLoop k (addFieldLoop key v l) = hasFieldLoop k l := by
  intro l
  induction l with
  | nil => simp [addFieldLoop, hasFieldLoop, hne]
  | cons f rest ih =>
    by_cases hk : key = f.key
    · simp only [addFieldLoop, if_pos hk, hasFieldLoop]
      rw [if_neg hne, if_neg fun h => hne (hk.trans h)]
    · simp only [addFieldLoop, if_neg hk, hasFieldLoop]
      by_cases hf : f.key = k
      · simp [if_pos hf]
      · simp [if_neg hf, ih]

theorem assoc_nodup_eq {α β : Type} [DecidableEq α] (l : List (α × β)) (k : α)
    (a b : β) (hnd : (l.map Prod.fst).Nodup) (ha : (k, a) ∈ l) (hb : (k, b) ∈ l) :
    a = b := by
  induction l with
  | nil => cases ha
  | cons p rest ih =>
    rw [List.map_cons, List.nodup_cons] at hnd
    rcases List.mem_cons.1 ha with ha1 | ha2
    · rcases List.mem_cons.1 hb with hb1 | hb2
      · rw [← ha1] at hb1
        exact (Prod.mk.injEq _ _ _ _ ▸ hb1).2.symm
      · exfalso
        apply hnd.1
        rw [← ha1]
        exact List.mem_map.2 ⟨(k, b), hb2, rfl⟩
    · rcases List.mem_cons.1 hb with hb1 | hb2
      · exfalso
        apply hnd.1
        rw [← hb1]
        exact List.mem_map.2 ⟨(k, a), ha2, rfl⟩
      · exact ih hnd.2 ha2 hb2

theorem newFieldsFold_not_hasField (k : Str) (full : List (Str × GoValue))
    (hfull : ∀ v, (k, v) ∈ full → convertField v = none) :
    ∀ l : List (Str × GoValue), (∀ p ∈ l, p ∈ full) →
    ∀ m : Metric, m.HasField k = false → (newFieldsFold l m).HasField k = false := by
  intro l
  induction l with
  | nil => exact fun _ m hm => hm
  | cons p rest ih =>
    intro hsub m hm
    rw [newFieldsFold_cons]
    cases hc : convertField p.2 with
    | none => exact ih (fun q hq => hsub q (List.mem_cons_of_mem p hq)) m hm
    | some r =>
      apply ih (fun q hq => hsub q (List.mem_cons_of_mem p hq))
      have hp1 : p.1 ≠ k := by
        intro hk
        have hpf : (k, p.2) ∈ full := by
          rw [← hk]
          exact hsub p (List.mem_cons_self p rest)
        rw [hfull p.2 hpf] at hc
        cases hc
      show hasFieldLoop k (addFieldLoop p.1 _ m.fields) = false
      rw [hasFieldLoop_addFieldLoop_other k p.1 _ hp1]
      exact hm

/-- C3: constructing from a map omits every key whose value is unconvertible,
while AddField with an unconvertible value still records the key, storing the
no-value marker, so the key is present afterwards. -/
theorem unconvertible_field_asymmetry :
    (∀ (name : Str) (tags : List (Str × Str)) (fields : List (Str × GoValue))
        (tm : Int) (tp : List ValueType) (k : Str) (v : GoValue),
      (fields.map Prod.fst).Nodup → (k, v) ∈ fields → convertField v = none →
      (NewMetric name tags fields tm tp).HasField k = false) ∧
    (∀ (m : Metric) (k : Str) (v : GoValue), convertField v = none →
      (m.AddField k v).HasField k = true ∧ (m.AddField k v).GetField k = some none) := by
  constructor
  · intro name tags fields tm tp k v hnd hmem hnone
    have hfull : ∀ w, (k, w) ∈ fields → convertField w = none := by
      intro w hw
      rw [assoc_nodup_eq fields k w v hnd hw hmem]
      exact hnone
    exact newFieldsFold_not_hasField k fields hfull fields (fun p hp => hp)
      { name := name, tags := sortTags (tags.map fun p => ⟨p.1, p.2⟩), fields := [],
        tm := tm,
        tp := match tp with | [] => ValueType.Untyped | t :: _ => t,
        aggregate := false } rfl
  · intro m k v hnone
    have hg : (m.AddField k v).GetField k = some (convertField v) :=
      getFieldLoop_addFieldLoop_self k v m.fields
    constructor
    · show hasFieldLoop k (addFieldLoop k v m.fields) = true
      rw [hasFieldLoop_eq_isSome, getFieldLoop_addFieldLoop_self k v m.fields]
      rfl
    · rw [hg, hnone]

/-- Witness for C3 at concrete inputs: building from a one-entry map whose
value is an unconvertible composite omits the key, while AddField of the same
value on an empty record leaves the key present with the no-value marker. -/
theorem unconvertible_field_asymmetry_witness :
    (NewMetric [] [] [([98], GoValue.other)] 0 []).HasField [98] = false ∧
    (Metric.AddField ⟨[], [], [], 0, .Untyped, false⟩ [98] GoValue.other).HasField [98]
        = true ∧
    (Metric.AddField ⟨[], [], [], 0, .Untyped, false⟩ [98] GoValue.other).GetField [98]
        = some none :=
  ⟨unconvertible_field_asymmetry.1 [] [] [([98], GoValue.other)] 0 [] [98]
      GoValue.other (by decide) (by decide) rfl,
   (unconvertible_field_asymmetry.2 ⟨[], [], [], 0, .Untyped, false⟩ [98]
      GoValue.other rfl).1,
   (unconvertible_field_asymmetry.2 ⟨[], [], [], 0, .Untyped, false⟩ [98]
      GoValue.other rfl).2⟩

theorem mem_addFieldLoop (key : Str) (v : GoValue) : ∀ (l : List Field) (f : Field),
    f ∈ addFieldLoop key v l → f = ⟨key, convertField v⟩ ∨ f ∈ l := by
  intro l
  induction l with
  | nil =>
    intro f hf
    rcases List.mem_singleton.1 hf with h
    exact Or.inl h
  | cons g rest ih =>
    intro f hf
    by_cases hk : key = g.key
    · rw [addFieldLoop, if_pos hk] at hf
      rcases List.mem_cons.1 hf with h | h
      · exact Or.inl h
      · exact Or.inr (List.mem_cons_of_mem g h)
    · rw [addFieldLoop, if_neg hk] at hf
      rcases List.mem_cons.1 hf with h | h
      · exact Or.inr (h ▸ List.mem_cons_self g rest)
      · rcases ih f h with h1 | h1
        · exact Or.inl h1
        · exact Or.inr (List.mem_cons_of_mem g h1)

theorem newFieldsFold_field_provenance (full : List (Str × GoValue)) :
    ∀ l : List (Str × GoValue), (∀ p ∈ l, p ∈ full) →
    ∀ m : Metric,
    (∀ f ∈ m.fields, ∃ v, (f.key, v) ∈ full ∧ convertField v = f.value) →
    ∀ f ∈ (newFieldsFold l m).fields,
      ∃ v, (f.key, v) ∈ full ∧ convertField v = f.value := by
  intro l
  induction l with
  | nil => exact fun _ m hm => hm
  | cons p rest ih =>
    intro hsub m hm
    rw [newFieldsFold_cons]
    cases hc : convertField p.2 with
    | none => exact ih (fun q hq => hsub q (List.mem_cons_of_mem p hq)) m hm
    | some r =>
      apply ih (fun q hq => hsub q (List.mem_cons_of_mem p hq))
      intro f hf
      rcases mem_addFieldLoop p.1 (GoValue.scalar (GoScalar.f64 r)) m.fields f hf with
        h1 | h1
      · refine ⟨p.2, ?_, ?_⟩
        · have : f.key = p.1 := by rw [h1]
          rw [this]
          exact hsub p (List.mem_cons_self p rest)
        · rw [h1]
          exact hc
      · exact hm f h1

/-- C9: the normalizer is idempotent on its successful outputs, and every
field stored by NewMetric carries exactly the value a single normalization of
its source map entry yields. -/
theorem convertField_idempotent :
    (∀ (v : GoValue) (r : GoFloat), convertField v = some r →
      convertField (GoValue.scalar (GoScalar.f64 r)) = some r) ∧
    (∀ (name : Str) (tags : List (Str × Str)) (fields : List (Str × GoValue))
        (tm : Int) (tp : List ValueType),
      ∀ f ∈ (NewMetric name tags fields tm tp).fields,
        ∃ v, (f.key, v) ∈ fields ∧ convertField v = f.value) := by
  constructor
  · exact fun v r _ => rfl
  · intro name tags fields tm tp f hf
    exact newFieldsFold_field_provenance fields fields (fun p hp => hp) _
      (fun g hg => absurd hg (List.not_mem_nil g)) f hf

/-- Witness for C9 at a concrete input: converting an int64 succeeds, feeding
the result back returns it unchanged, and the record built from a one-entry
field map stores a value that one conversion of the map entry produces. -/
theorem convertField_idempotent_witness :
    convertField (GoValue.scalar (GoScalar.f64 (GoFloat.ofInt 4))) =
      some (GoFloat.ofInt 4) ∧
    (∃ v, (([120] : Str), v) ∈ [(([120] : Str), GoValue.scalar (GoScalar.i64 4))] ∧
      convertField v = some (GoFloat.ofInt 4)) :=
  ⟨convertField_idempotent.1 (GoValue.scalar (GoScalar.i64 4)) (GoFloat.ofInt 4) rfl,
   by
    have h := convertField_idempotent.2 [] [] [(([120] : Str),
      GoValue.scalar (GoScalar.i64 4))] 0 [] ⟨[120], some (GoFloat.ofInt 4)⟩
      (by decide)
    exact h⟩

/-- C7: every string or byte-sequence input to the normalizer, directly or
through a non-nil pointer, is mapped through the base-10 floating-point parse:
the result is the parsed value, and it is Unconvertible exactly when the
base-10 literal grammar rejects the text. -/
theorem string_inputs_parse_base10 (s : Str) :
    convertField (GoValue.scalar (GoScalar.str s)) = goParseFloat s ∧
    convertField (GoValue.scalar (GoScalar.bytes s)) = goParseFloat s ∧
    convertField (GoValue.ptr (some (GoScalar.str s))) = goParseFloat s ∧
    convertField (GoValue.ptr (some (GoScalar.bytes s))) = goParseFloat s ∧
    (convertField (GoValue.scalar (GoScalar.str s)) = none ↔
      mantExpOk (stripSign s) = false) := by
  refine ⟨rfl, rfl, rfl, rfl, ?_⟩
  by_cases h : mantExpOk (stripSign s) = true
  · simp [convertField, convertScalar, atof, goParseFloat, h]
  · simp [convertField, convertScalar, atof, goParseFloat, h,
      Bool.not_eq_true _ ▸ h]

theorem strLt_irrefl : ∀ s : Str, strLt s s = false := by
  intro s
  induction s with
  | nil => rfl
  | cons a as ih => simp [strLt, ih]

theorem strLt_ne {a b : Str} (h : strLt a b = true) : a ≠ b := by
  intro he
  rw [he, strLt_irrefl] at h
  cases h

theorem strLt_trans : ∀ a b c : Str, strLt a b = true → strLt b c = true →
    strLt a c = true := by
  intro a
  induction a with
  | nil =>
    intro b c hab hbc
    cases b with
    | nil => cases hab
    | cons y ys =>
      cases c with
      | nil => cases hbc
      | cons z zs => rfl
  | cons x xs ih =>
    intro b c hab hbc
    cases b with
    | nil => cases hab
    | cons y ys =>
      cases c with
      | nil => cases hbc
      | cons z zs =>
        simp only [strLt, Bool.or_eq_true, Bool.and_eq_true, beq_iff_eq,
          decide_eq_true_eq] at hab hbc ⊢
        rcases hab with h1 | ⟨h1, h1s⟩
        · rcases hbc with h2 | ⟨h2, _⟩
          · exact Or.inl (h1.trans h2)
          · exact Or.inl (h2 ▸ h1)
        · rcases hbc with h2 | ⟨h2, h2s⟩
          · exact Or.inl (h1 ▸ h2)
          · exact Or.inr ⟨h1.trans h2, ih ys zs h1s h2s⟩

theorem strLt_total : ∀ a b : Str, strLt a b = true ∨ a = b ∨ strLt b a = true := by
  intro a
  induction a with
  | nil =>
    intro b
    cases b with
    | nil => exact Or.inr (Or.inl rfl)
    | cons y ys => exact Or.inl rfl
  | cons x xs ih =>
    intro b
    cases b with
    | nil => exact Or.inr (Or.inr rfl)
    | cons y ys =>
      rcases Nat.lt_trichotomy x y with h | h | h
      · exact Or.inl (by simp [strLt, h])
      · subst h
        rcases ih ys with h2 | h2 | h2
        · exact Or.inl (by simp [strLt, h2])
        · exact Or.inr (Or.inl (by rw [h2]))
        · exact Or.inr (Or.inr (by simp [strLt, h2]))
      · exact Or.inr (Or.inr (by simp [strLt, h]))

/-- The sorted-ascending-keys invariant of the tag sequence. -/
def tagKeysSorted (l : List Tag) : Prop :=
  l.Pairwise fun a b => strLt a.key b.key = true

theorem insertTagSorted_perm (t : Tag) : ∀ l : List Tag,
    List.Perm (insertTagSorted t l) (t :: l) := by
  intro l
  induction l with
  | nil => exact List.Perm.refl _
  | cons u rest ih =>
    by_cases h : strLt t.key u.key = true
    · rw [insertTagSorted, if_pos h]
    · rw [insertTagSorted, if_neg h]
      exact (ih.cons u).trans (List.Perm.swap t u rest)

theorem insertTagSorted_sorted (t : Tag) : ∀ l : List Tag, tagKeysSorted l →
    (∀ u ∈ l, u.key ≠ t.key) → tagKeysSorted (insertTagSorted t l) := by
  intro l
  induction l with
  | nil => exact fun _ _ => List.pairwise_singleton _ t
  | cons u rest ih =>
    intro hs hne
    rw [tagKeysSorted, List.pairwise_cons] at hs
    by_cases h : strLt t.key u.key = true
    · rw [insertTagSorted, if_pos h]
      refine List.Pairwise.cons ?_ (List.Pairwise.cons hs.1 hs.2)
      intro w hw
      rcases List.mem_cons.1 hw with hw1 | hw2
      · rw [hw1]; exact h
      · exact strLt_trans _ _ _ h (hs.1 w hw2)
    · rw [insertTagSorted, if_neg h]
      have hut : strLt u.key t.key = true := by
        rcases strLt_total u.key t.key with h1 | h1 | h1
        · exact h1
        · exact absurd h1 (hne u (List.mem_cons_self u rest))
        · exact absurd h1 h
      refine List.Pairwise.cons ?_
        (ih hs.2 fun w hw => hne w (List.mem_cons_of_mem u hw))
      intro w hw
      rcases List.mem_cons.1 ((insertTagSorted_perm t rest).mem_iff.1 hw) with hw1 | hw2
      · rw [hw1]; exact hut
      · exact hs.1 w hw2

theorem sortTags_perm : ∀ l : List Tag, List.Perm (sortTags l) l := by
  intro l
  induction l with
  | nil => exact List.Perm.refl _
  | cons t rest ih =>
    exact (insertTagSorted_perm t (sortTags rest)).trans (ih.cons t)

theorem sortTags_sorted : ∀ l : List Tag, (l.map Tag.key).Nodup →
    tagKeysSorted (sortTags l) := by
  intro l
  induction l with
  | nil => exact fun _ => List.Pairwise.nil
  | cons t rest ih =>
    intro hnd
    rw [List.map_cons, List.nodup_cons] at hnd
    refine insertTagSorted_sorted t (sortTags rest) (ih hnd.2) ?_
    intro u hu he
    apply hnd.1
    rw [← he]
    exact List.mem_map.2 ⟨u, (sortTags_perm rest).mem_iff.1 hu, rfl⟩

theorem tagKeysSorted_nodup {l : List Tag} (h : tagKeysSorted l) :
    (l.map Tag.key).Nodup := by
  show (l.map Tag.key).Pairwise (· ≠ ·)
  rw [List.pairwise_map]
  exact h.imp fun hab => strLt_ne hab

theorem mem_addTagLoop (key value : Str) : ∀ (l : List Tag) (w : Tag),
    w ∈ addTagLoop key value l → w.key = key ∨ w ∈ l := by
  intro l
  induction l with
  | nil =>
    intro w hw
    rw [List.mem_singleton.1 hw]
    exact Or.inl rfl
  | cons t rest ih =>
    intro w hw
    by_cases h1 : strLt t.key key = true
    · rw [addTagLoop, if_pos h1] at hw
      rcases List.mem_cons.1 hw with hw1 | hw2
      · exact Or.inr (hw1 ▸ List.mem_cons_self t rest)
      · rcases ih w hw2 with h | h
        · exact Or.inl h
        · exact Or.inr (List.mem_cons_of_mem t h)
    · rw [addTagLoop, if_neg h1] at hw
      by_cases h2 : key = t.key
      · rw [if_pos h2] at hw
        rcases List.mem_cons.1 hw with hw1 | hw2
        · exact Or.inl (by rw [hw1, ← h2])
        · exact Or.inr (List.mem_cons_of_mem t hw2)
      · rw [if_neg h2] at hw
        rcases List.mem_cons.1 hw with hw1 | hw2
        · exact Or.inl (by rw [hw1])
        · exact Or.inr hw2

theorem addTagLoop_sorted (key value : Str) : ∀ l : List Tag, tagKeysSorted l →
    tagKeysSorted (addTagLoop key value l) := by
  intro l
  induction l with
  | nil => exact fun _ => List.pairwise_singleton _ _
  | cons t rest ih =>
    intro hs
    rw [tagKeysSorted, List.pairwise_cons] at hs
    by_cases h1 : strLt t.key key = true
    · rw [addTagLoop, if_pos h1]
      refine List.Pairwise.cons ?_ (ih hs.2)
      intro w hw
      rcases mem_addTagLoop key value rest w hw with h | h
      · rw [h]; exact h1
      · exact hs.1 w h
    · rw [addTagLoop, if_neg h1]
      by_cases h2 : key = t.key
      · rw [if_pos h2]
        refine List.Pairwise.cons ?_ hs.2
        intro w hw
        exact hs.1 w hw
      · rw [if_neg h2]
        have hkt : strLt key t.key = true := by
          rcases strLt_total key t.key with h | h | h
          · exact h
          · exact absurd h h2
          · exact absurd h h1
        refine List.Pairwise.cons ?_ (List.Pairwise.cons hs.1 hs.2)
        intro w hw
        rcases List.mem_cons.1 hw with hw1 | hw2
        · rw [hw1]; exact hkt
        · exact strLt_trans _ _ _ hkt (hs.1 w hw2)

theorem map_overwrite_id (key value : Str) : ∀ l : List Tag,
    (∀ t ∈ l, t.key ≠ key) →
    (l.map fun t => if t.key = key then (⟨key, value⟩ : Tag) else t) = l := by
  intro l
  induction l with
  | nil => exact fun _ => rfl
  | cons t rest ih =>
    intro h
    rw [List.map_cons, if_neg (h t (List.mem_cons_self t rest)),
      ih fun u hu => h u (List.mem_cons_of_mem t hu)]

theorem addTagLoop_overwrite (key value : Str) : ∀ l : List Tag, tagKeysSorted l →
    (∃ t ∈ l, t.key = key) →
    addTagLoop key value l = l.map fun t => if t.key = key then ⟨key, value⟩ else t := by
  intro l
  induction l with
  | nil => rintro _ ⟨t, ht, _⟩; cases ht
  | cons t rest ih =>
    intro hs hex
    rw [tagKeysSorted, List.pairwise_cons] at hs
    by_cases h1 : strLt t.key key = true
    · have htk : t.key ≠ key := strLt_ne h1
      rw [addTagLoop, if_pos h1, List.map_cons, if_neg htk]
      have hex2 : ∃ u ∈ rest, u.key = key := by
        rcases hex with ⟨u, hu, huk⟩
        rcases List.mem_cons.1 hu with hu1 | hu2
        · exact absurd (hu1 ▸ huk) htk
        · exact ⟨u, hu2, huk⟩
      rw [ih hs.2 hex2]
    · rw [addTagLoop, if_neg h1]
      by_cases h2 : key = t.key
      · rw [if_pos h2, List.map_cons, if_pos h2.symm]
        have hrest : ∀ u ∈ rest, u.key ≠ key := by
          intro u hu he
          have := hs.1 u hu
          rw [he, ← h2] at this
          exact absurd this (by rw [strLt_irrefl]; simp)
        rw [map_overwrite_id key value rest hrest, ← h2]
      · exfalso
        rcases hex with ⟨u, hu, huk⟩
        rcases List.mem_cons.1 hu with hu1 | hu2
        · exact h2 ((hu1 ▸ huk).symm)
        · have := hs.1 u hu2
          rw [huk] at this
          exact absurd this h1

theorem addTagLoop_insert (key value : Str) : ∀ l : List Tag,
    (∀ t ∈ l, t.key ≠ key) →
    addTagLoop key value l = insertTagSorted ⟨key, value⟩ l := by
  intro l
  induction l with
  | nil => exact fun _ => rfl
  | cons t rest ih =>
    intro h
    have htk : t.key ≠ key := h t (List.mem_cons_self t rest)
    by_cases h1 : strLt t.key key = true
    · have h2 : strLt key t.key = false := by
        cases hb : strLt key t.key
        · rfl
        · exact absurd (strLt_ne (strLt_trans _ _ _ h1 hb)) (fun hc => hc rfl)
      rw [addTagLoop, if_pos h1, insertTagSorted]
      show t :: addTagLoop key value rest = _
      rw [if_neg (by rw [h2]; simp : ¬ strLt key t.key = true),
        ih fun u hu => h u (List.mem_cons_of_mem t hu)]
    · have hkt : strLt key t.key = true := by
        rcases strLt_total key t.key with hx | hx | hx
        · exact hx
        · exact absurd hx.symm htk
        · exact absurd hx h1
      rw [addTagLoop, if_neg h1, if_neg (fun he => htk he.symm), insertTagSorted,
        if_pos hkt]

/-- A sequence of AddTag calls, folded over a record. -/
def applyAddTags (m : Metric) (calls : List (Str × Str)) : Metric :=
  calls.foldl (fun m p => m.AddTag p.1 p.2) m

theorem applyAddTags_sorted : ∀ (calls : List (Str × Str)) (m : Metric),
    tagKeysSorted m.tags → tagKeysSorted (applyAddTags m calls).tags := by
  intro calls
  induction calls with
  | nil => exact fun m h => h
  | cons c rest ih =>
    intro m h
    exact ih (m.AddTag c.1 c.2) (addTagLoop_sorted c.1 c.2 m.tags h)

/-- C2: after construction and after every AddTag call the tag sequence is
sorted ascending by key with no duplicate keys; AddTag on an existing key
overwrites that entry's value in place, and otherwise inserts the new entry at
the position keeping ascending order. -/
theorem tag_sorted_unique_invariant (name : Str) (tags : List (Str × Str))
    (fields : List (Str × GoValue)) (tm : Int) (tp : List ValueType)
    (calls : List (Str × Str)) (hnd : (tags.map Prod.fst).Nodup) :
    tagKeysSorted (NewMetric name tags fields tm tp).tags ∧
    ((NewMetric name tags fields tm tp).tags.map Tag.key).Nodup ∧
    tagKeysSorted (applyAddTags (NewMetric name tags fields tm tp) calls).tags ∧
    ((applyAddTags (NewMetric name tags fields tm tp) calls).tags.map Tag.key).Nodup ∧
    (∀ (m : Metric) (key value : Str), tagKeysSorted m.tags →
      ((∃ t ∈ m.tags, t.key = key) →
        (m.AddTag key value).tags =
          m.tags.map fun t => if t.key = key then ⟨key, value⟩ else t) ∧
      ((∀ t ∈ m.tags, t.key ≠ key) →
        (m.AddTag key value).tags = insertTagSorted ⟨key, value⟩ m.tags)) := by
  have htags : (NewMetric name tags fields tm tp).tags =
      sortTags (tags.map fun p => ⟨p.1, p.2⟩) :=
    (newFieldsFold_preserves fields _).2.1
  have hmk : ((tags.map fun p => (⟨p.1, p.2⟩ : Tag)).map Tag.key) = tags.map Prod.fst := by
    rw [List.map_map]
    rfl
  have hs0 : tagKeysSorted (NewMetric name tags fields tm tp).tags := by
    rw [htags]
    exact sortTags_sorted _ (by rw [hmk]; exact hnd)
  have hsN : tagKeysSorted (applyAddTags (NewMetric name tags fields tm tp) calls).tags :=
    applyAddTags_sorted calls _ hs0
  refine ⟨hs0, tagKeysSorted_nodup hs0, hsN, tagKeysSorted_nodup hsN, ?_⟩
  intro m key value hsm
  exact ⟨fun hex => addTagLoop_overwrite key value m.tags hsm hex,
    fun hno => addTagLoop_insert key value m.tags hno⟩

/-- Witness for C2 at concrete inputs: a record built from an unsorted
two-entry tag map, after two further AddTag calls (one overwrite, one
insert), has a sorted duplicate-free tag sequence. -/
theorem tag_sorted_unique_invariant_witness :
    tagKeysSorted (applyAddTags
      (NewMetric [110] [([104], [97]), ([97], [98])] [] 0 [])
      [([104], [99]), ([98], [100])]).tags ∧
    ((applyAddTags (NewMetric [110] [([104], [97]), ([97], [98])] [] 0 [])
      [([104], [99]), ([98], [100])]).tags.map Tag.key).Nodup :=
  ⟨(tag_sorted_unique_invariant [110] [([104], [97]), ([97], [98])] [] 0 []
      [([104], [99]), ([98], [100])] (by decide)).2.2.1,
   (tag_sorted_unique_invariant [110] [([104], [97]), ([97], [98])] [] 0 []
      [([104], [99]), ([98], [100])] (by decide)).2.2.2.1⟩

/-
Pointer-level embedding, used for the deep-copy independence claim. In the
source, a metric's tags and fields slices hold pointers to Tag and Field
structs; AddTag overwrites an existing tag through its pointer (line 150),
AddField replaces a slice slot with a freshly allocated Field (line 195), and
Copy allocates fresh Tag and Field structs (lines 245-251). To make aliasing
observable, every Tag and Field struct lives in a heap (cells addressed by
allocation index) and a metric holds cell indices.
-/
namespace Ref

/-- The heap of allocated Tag and Field structs. -/
structure Heap where
  tagCells : List Tag
  fieldCells : List Field
deriving DecidableEq

/-- A metric whose tags and fields slices are slices of pointers: lists of
heap cell indices. -/
structure MRef where
  name : Str
  tagIds : List Nat
  fieldIds : List Nat
  tm : Int
  tp : ValueType
  aggregate : Bool
deriving DecidableEq

/-- Dereference a tag pointer. -/
def readTag (h : Heap) (i : Nat) : Tag := h.tagCells.getD i ⟨[], []⟩

/-- Dereference a field pointer. -/
def readField (h : Heap) (i : Nat) : Field := h.fieldCells.getD i ⟨[], none⟩

/-- The observable tag sequence of a metric: its pointers dereferenced. -/
def tagsOf (h : Heap) (m : MRef) : List Tag := m.tagIds.map (readTag h)

/-- The observable field sequence of a metric. -/
def fieldsOf (h : Heap) (m : MRef) : List Field := m.fieldIds.map (readField h)

/-- All pointers of a metric are allocated in the heap. -/
def wf (h : Heap) (m : MRef) : Prop :=
  (∀ i ∈ m.tagIds, i < h.tagCells.length) ∧ (∀ i ∈ m.fieldIds, i < h.fieldCells.length)

instance (h : Heap) (m : MRef) : Decidable (wf h m) := by
  unfold wf; infer_instance

/-- The loop of AddTag at the pointer level (source lines 143-161): continue
past smaller keys; on an equal key write the new value through the pointer (a
heap update at that cell); otherwise allocate a fresh Tag and splice its
pointer in at the current position; append a fresh allocation if the loop
finishes. Returns the updated heap and the metric's new pointer list. -/
def addTagIds (h : Heap) (key value : Str) : List Nat → Heap × List Nat
  | [] => ({ h with tagCells := h.tagCells ++ [⟨key, value⟩] }, [h.tagCells.length])
  | i :: rest =>
    let t := readTag h i
    if strLt t.key key then
      let r := addTagIds h key value rest
      (r.1, i :: r.2)
    else if key = t.key then
      ({ h with tagCells := h.tagCells.set i ⟨t.key, value⟩ }, i :: rest)
    else
      ({ h with tagCells := h.tagCells ++ [⟨key, value⟩] }, h.tagCells.length :: i :: rest)

def AddTag (h : Heap) (m : MRef) (key value : Str) : Heap × MRef :=
  let r := addTagIds h key value m.tagIds
  (r.1, { m with tagIds := r.2 })

/-- The loop of AddField at the pointer level (source lines 192-200): on a
matching key the slice slot is repointed at a freshly allocated Field (the old
cell is not written); otherwise a fresh Field is allocated and appended. -/
def addFieldIds (h : Heap) (key : Str) (value : GoValue) : List Nat → Heap × List Nat
  | [] =>
    ({ h with fieldCells := h.fieldCells ++ [⟨key, convertField value⟩] },
     [h.fieldCells.length])
  | i :: rest =>
    if key = (readField h i).key then
      ({ h with fieldCells := h.fieldCells ++ [⟨key, convertField value⟩] },
       h.fieldCells.length :: rest)
    else
      let r := addFieldIds h key value rest
      (r.1, i :: r.2)

def AddField (h : Heap) (m : MRef) (key : Str) (value : GoValue) : Heap × MRef :=
  let r := addFieldIds h key value m.fieldIds
  (r.1, { m with fieldIds := r.2 })

/-- RemoveTag at the pointer level (source lines 181-190): drop the first
matching pointer from the slice; no heap cell is written. -/
def removeTagIds (h : Heap) (key : Str) : List Nat → List Nat
  | [] => []
  | i :: rest =>
    if (readTag h i).key = key then rest else i :: removeTagIds h key rest

def RemoveTag (h : Heap) (m : MRef) (key : Str) : Heap × MRef :=
  (h, { m with tagIds := removeTagIds h key m.tagIds })

/-- RemoveField at the pointer level (source lines 220-229). -/
def removeFieldIds (h : Heap) (key : Str) : List Nat → List Nat
  | [] => []
  | i :: rest =>
    if (readField h i).key = key then rest else i :: removeFieldIds h key rest

def RemoveField (h : Heap) (m : MRef) (key : Str) : Heap × MRef :=
  (h, { m with fieldIds := removeFieldIds h key m.fieldIds })

/-- Copy (source lines 235-253): same name, timestamp, kind and aggregate
flag; fresh Tag and Field structs are allocated holding copies of the
originals' contents, and the new metric points at the fresh cells. -/
def Copy (h : Heap) (m : MRef) : Heap × MRef :=
  let h2 : Heap :=
    { tagCells := h.tagCells ++ tagsOf h m
      fieldCells := h.fieldCells ++ fieldsOf h m }
  (h2,
   { name := m.name
     tagIds := (List.range m.tagIds.length).map (· + h.tagCells.length)
     fieldIds := (List.range m.fieldIds.length).map (· + h.fieldCells.length)
     tm := m.tm
     tp := m.tp
     aggregate := m.aggregate })

theorem getD_append_lt {α : Type} (l ex : List α) (d : α) : ∀ j, j < l.length →
    (l ++ ex).getD j d = l.getD j d := by
  induction l with
  | nil => intro j hj; exact absurd hj (Nat.not_lt_zero j)
  | cons a rest ih =>
    intro j hj
    cases j with
    | zero => rfl
    | succ n =>
      rw [List.cons_append, List.getD_cons_succ, List.getD_cons_succ]
      exact ih n (Nat.lt_of_succ_lt_succ hj)

theorem getD_append_right_len {α : Type} (l ex : List α) (d : α) (j : Nat) :
    (l ++ ex).getD (l.length + j) d = ex.getD j d := by
  induction l with
  | nil => simp
  | cons a rest ih =>
    rw [List.cons_append, List.length_cons, Nat.succ_add, List.getD_cons_succ]
    exact ih

theorem getD_set_ne {α : Type} : ∀ (l : List α) (i : Nat) (x d : α) (j : Nat),
    i ≠ j → (l.set i x).getD j d = l.getD j d := by
  intro l
  induction l with
  | nil => intro i x d j _; rfl
  | cons a rest ih =>
    intro i x d j hne
    cases i with
    | zero =>
      cases j with
      | zero => exact absurd rfl hne
      | succ n => rfl
    | succ k =>
      cases j with
      | zero => rfl
      | succ n =>
        rw [List.set_cons_succ, List.getD_cons_succ, List.getD_cons_succ]
        exact ih k x d n fun he => hne (by rw [he])

theorem map_getD_range {α : Type} (l : List α) (d : α) :
    (List.range l.length).map (fun i => l.getD i d) = l := by
  apply List.ext_getElem
  · simp
  · intro i h1 h2
    simp only [List.getElem_map]
    rw [List.getElem_range]
    exact List.getD_eq_getElem l d h2

theorem tagsOf_eq_of_reads {h1 h2 : Ref.Heap} {m : Ref.MRef}
    (hr : ∀ j ∈ m.tagIds, Ref.readTag h1 j = Ref.readTag h2 j) :
    Ref.tagsOf h1 m = Ref.tagsOf h2 m :=
  List.map_congr_left hr

theorem fieldsOf_eq_of_reads {h1 h2 : Ref.Heap} {m : Ref.MRef}
    (hr : ∀ j ∈ m.fieldIds, Ref.readField h1 j = Ref.readField h2 j) :
    Ref.fieldsOf h1 m = Ref.fieldsOf h2 m :=
  List.map_congr_left hr

theorem addTagIds_frame (key value : Str) : ∀ (ids : List Nat) (h : Ref.Heap),
    (Ref.addTagIds h key value ids).1.fieldCells = h.fieldCells ∧
    ∀ j, j ∉ ids → j < h.tagCells.length →
      Ref.readTag (Ref.addTagIds h key value ids).1 j = Ref.readTag h j := by
  intro ids
  induction ids with
  | nil =>
    intro h
    refine ⟨rfl, fun j _ hj => ?_⟩
    show (h.tagCells ++ _).getD j _ = _
    exact getD_append_lt h.tagCells _ _ j hj
  | cons i rest ih =>
    intro h
    by_cases h1 : strLt (Ref.readTag h i).key key = true
    · have he : Ref.addTagIds h key value (i :: rest) =
          ((Ref.addTagIds h key value rest).1, i :: (Ref.addTagIds h key value rest).2) := by
        simp only [Ref.addTagIds, if_pos h1]
      rw [he]
      refine ⟨(ih h).1, fun j hj hlt => ?_⟩
      exact (ih h).2 j (fun hm => hj (List.mem_cons_of_mem i hm)) hlt
    · by_cases h2 : key = (Ref.readTag h i).key
      · have he : (Ref.addTagIds h key value (i :: rest)).1 =
            { h with tagCells := h.tagCells.set i ⟨(Ref.readTag h i).key, value⟩ } := by
          simp only [Ref.addTagIds, if_neg h1, if_pos h2]
        rw [he]
        refine ⟨rfl, fun j hj _ => ?_⟩
        show (h.tagCells.set i _).getD j _ = _
        exact getD_set_ne h.tagCells i _ _ j fun hij =>
          hj (hij ▸ List.mem_cons_self i rest)
      · have he : (Ref.addTagIds h key value (i :: rest)).1 =
            { h with tagCells := h.tagCells ++ [⟨key, value⟩] } := by
          simp only [Ref.addTagIds, if_neg h1, if_neg h2]
        rw [he]
        refine ⟨rfl, fun j _ hj => ?_⟩
        show (h.tagCells ++ _).getD j _ = _
        exact getD_append_lt h.tagCells _ _ j hj

theorem addFieldIds_frame (key : Str) (value : GoValue) :
    ∀ (ids : List Nat) (h : Ref.Heap),
    (Ref.addFieldIds h key value ids).1.tagCells = h.tagCells ∧
    ∃ ex, (Ref.addFieldIds h key value ids).1.fieldCells = h.fieldCells ++ ex := by
  intro ids
  induction ids with
  | nil => exact fun h => ⟨rfl, [⟨key, convertField value⟩], rfl⟩
  | cons i rest ih =>
    intro h
    by_cases h1 : key = (Ref.readField h i).key
    · have he : (Ref.addFieldIds h key value (i :: rest)).1 =
          { h with fieldCells := h.fieldCells ++ [⟨key, convertField value⟩] } := by
        simp only [Ref.addFieldIds, if_pos h1]
      rw [he]
      exact ⟨rfl, [⟨key, convertField value⟩], rfl⟩
    · have he : (Ref.addFieldIds h key value (i :: rest)).1 =
          (Ref.addFieldIds h key value rest).1 := by
        simp only [Ref.addFieldIds, if_neg h1]
      rw [he]
      exact ih h

theorem readField_of_append_lt (h : Ref.Heap) (ex : List Field) (j : Nat)
    (hj : j < h.fieldCells.length) :
    Ref.readField { h with fieldCells := h.fieldCells ++ ex } j = Ref.readField h j :=
  getD_append_lt h.fieldCells ex _ j hj

theorem readTag_of_append_lt (h : Ref.Heap) (ex : List Tag) (j : Nat)
    (hj : j < h.tagCells.length) :
    Ref.readTag { h with tagCells := h.tagCells ++ ex } j = Ref.readTag h j :=
  getD_append_lt h.tagCells ex _ j hj

theorem copy_heap_eq (h : Ref.Heap) (m : Ref.MRef) :
    (Ref.Copy h m).1 =
      { tagCells := h.tagCells ++ Ref.tagsOf h m
        fieldCells := h.fieldCells ++ Ref.fieldsOf h m } := rfl

theorem copy_tagIds_bounds (h : Ref.Heap) (m : Ref.MRef) :
    ∀ j ∈ (Ref.Copy h m).2.tagIds,
      h.tagCells.length ≤ j ∧ j < (Ref.Copy h m).1.tagCells.length := by
  intro j hj
  rcases List.mem_map.1 hj with ⟨i, hi, he⟩
  have hin : i < m.tagIds.length := List.mem_range.1 hi
  constructor
  · rw [← he]; exact Nat.le_add_left _ _
  · rw [← he, copy_heap_eq]
    show i + h.tagCells.length < (h.tagCells ++ Ref.tagsOf h m).length
    rw [List.length_append]
    have : (Ref.tagsOf h m).length = m.tagIds.length := List.length_map _ _
    omega

theorem copy_fieldIds_bounds (h : Ref.Heap) (m : Ref.MRef) :
    ∀ j ∈ (Ref.Copy h m).2.fieldIds,
      h.fieldCells.length ≤ j ∧ j < (Ref.Copy h m).1.fieldCells.length := by
  intro j hj
  rcases List.mem_map.1 hj with ⟨i, hi, he⟩
  have hin : i < m.fieldIds.length := List.mem_range.1 hi
  constructor
  · rw [← he]; exact Nat.le_add_left _ _
  · rw [← he, copy_heap_eq]
    show i + h.fieldCells.length < (h.fieldCells ++ Ref.fieldsOf h m).length
    rw [List.length_append]
    have : (Ref.fieldsOf h m).length = m.fieldIds.length := List.length_map _ _
    omega

theorem copy_tags_view (h : Ref.Heap) (m : Ref.MRef) :
    Ref.tagsOf (Ref.Copy h m).1 (Ref.Copy h m).2 = Ref.tagsOf h m := by
  show ((List.range m.tagIds.length).map (· + h.tagCells.length)).map
      (Ref.readTag (Ref.Copy h m).1) = _
  rw [List.map_map]
  have hlen : m.tagIds.length = (Ref.tagsOf h m).length :=
    (List.length_map _ _).symm
  rw [hlen]
  rw [show (Ref.readTag (Ref.Copy h m).1 ∘ (· + h.tagCells.length)) =
      fun i => (Ref.tagsOf h m).getD i ⟨[], []⟩ from ?_]
  · exact map_getD_range _ _
  · funext i
    show (h.tagCells ++ Ref.tagsOf h m).getD (i + h.tagCells.length) _ = _
    rw [Nat.add_comm i h.tagCells.length]
    exact getD_append_right_len h.tagCells _ _ i

theorem copy_fields_view (h : Ref.Heap) (m : Ref.MRef) :
    Ref.fieldsOf (Ref.Copy h m).1 (Ref.Copy h m).2 = Ref.fieldsOf h m := by
  show ((List.range m.fieldIds.length).map (· + h.fieldCells.length)).map
      (Ref.readField (Ref.Copy h m).1) = _
  rw [List.map_map]
  have hlen : m.fieldIds.length = (Ref.fieldsOf h m).length :=
    (List.length_map _ _).symm
  rw [hlen]
  rw [show (Ref.readField (Ref.Copy h m).1 ∘ (· + h.fieldCells.length)) =
      fun i => (Ref.fieldsOf h m).getD i ⟨[], none⟩ from ?_]
  · exact map_getD_range _ _
  · funext i
    show (h.fieldCells ++ Ref.fieldsOf h m).getD (i + h.fieldCells.length) _ = _
    rw [Nat.add_comm i h.fieldCells.length]
    exact getD_append_right_len h.fieldCells _ _ i

theorem tagsOf_congr_cells {h1 h2 : Heap} (hce : h1.tagCells = h2.tagCells)
    (m : MRef) : tagsOf h1 m = tagsOf h2 m :=
  tagsOf_eq_of_reads fun j _ => by
    show h1.tagCells.getD j _ = h2.tagCells.getD j _
    rw [hce]

theorem fieldsOf_congr_cells {h1 h2 : Heap} (hce : h1.fieldCells = h2.fieldCells)
    (m : MRef) : fieldsOf h1 m = fieldsOf h2 m :=
  fieldsOf_eq_of_reads fun j _ => by
    show h1.fieldCells.getD j _ = h2.fieldCells.getD j _
    rw [hce]

/-- C5: Copy returns a record with the same name, timestamp, value kind,
aggregate flag, tag sequence and field sequence, backed by storage independent
of the original: each of AddTag, AddField, RemoveTag and RemoveField applied
to the copy leaves the original's observable tag and field sequences
unchanged, and applied to the original leaves the copy's unchanged. -/
theorem copy_deep_independence (h : Heap) (m : MRef) (hwf : wf h m) :
    ∀ hc c, Copy h m = (hc, c) →
    (c.name = m.name ∧ c.tm = m.tm ∧ c.tp = m.tp ∧ c.aggregate = m.aggregate ∧
      tagsOf hc c = tagsOf h m ∧ fieldsOf hc c = fieldsOf h m) ∧
    (∀ key value,
      tagsOf (AddTag hc c key value).1 m = tagsOf h m ∧
      fieldsOf (AddTag hc c key value).1 m = fieldsOf h m ∧
      tagsOf (AddTag hc m key value).1 c = tagsOf hc c ∧
      fieldsOf (AddTag hc m key value).1 c = fieldsOf hc c) ∧
    (∀ key value,
      tagsOf (AddField hc c key value).1 m = tagsOf h m ∧
      fieldsOf (AddField hc c key value).1 m = fieldsOf h m ∧
      tagsOf (AddField hc m key value).1 c = tagsOf hc c ∧
      fieldsOf (AddField hc m key value).1 c = fieldsOf hc c) ∧
    (∀ key,
      tagsOf (RemoveTag hc c key).1 m = tagsOf h m ∧
      fieldsOf (RemoveTag hc c key).1 m = fieldsOf h m ∧
      tagsOf (RemoveField hc c key).1 m = tagsOf h m ∧
      fieldsOf (RemoveField hc c key).1 m = fieldsOf h m ∧
      tagsOf (RemoveTag hc m key).1 c = tagsOf hc c ∧
      fieldsOf (RemoveTag hc m key).1 c = fieldsOf hc c ∧
      tagsOf (RemoveField hc m key).1 c = tagsOf hc c ∧
      fieldsOf (RemoveField hc m key).1 c = fieldsOf hc c) := by
  intro hc c hcopy
  have e1 : hc = (Copy h m).1 := by rw [hcopy]
  have e2 : c = (Copy h m).2 := by rw [hcopy]
  subst e1
  subst e2
  have hmT : ∀ j ∈ m.tagIds, j < h.tagCells.length := hwf.1
  have hmF : ∀ j ∈ m.fieldIds, j < h.fieldCells.length := hwf.2
  have hcT := copy_tagIds_bounds h m
  have hcF := copy_fieldIds_bounds h m
  have hlenT : (Copy h m).1.tagCells.length =
      h.tagCells.length + (tagsOf h m).length := by
    rw [copy_heap_eq]
    exact List.length_append _ _
  have hlenF : (Copy h m).1.fieldCells.length =
      h.fieldCells.length + (fieldsOf h m).length := by
    rw [copy_heap_eq]
    exact List.length_append _ _
  have hreadT : ∀ j ∈ m.tagIds, readTag (Copy h m).1 j = readTag h j := by
    intro j hj
    show (h.tagCells ++ tagsOf h m).getD j _ = _
    exact getD_append_lt h.tagCells _ _ j (hmT j hj)
  have hreadF : ∀ j ∈ m.fieldIds, readField (Copy h m).1 j = readField h j := by
    intro j hj
    show (h.fieldCells ++ fieldsOf h m).getD j _ = _
    exact getD_append_lt h.fieldCells _ _ j (hmF j hj)
  have hmc_tags : tagsOf (Copy h m).1 m = tagsOf h m := tagsOf_eq_of_reads hreadT
  have hmc_fields : fieldsOf (Copy h m).1 m = fieldsOf h m :=
    fieldsOf_eq_of_reads hreadF
  have hmT2 : ∀ j ∈ m.tagIds, j < (Copy h m).1.tagCells.length := by
    intro j hj
    rw [hlenT]
    exact Nat.lt_of_lt_of_le (hmT j hj) (Nat.le_add_right _ _)
  have hmF2 : ∀ j ∈ m.fieldIds, j < (Copy h m).1.fieldCells.length := by
    intro j hj
    rw [hlenF]
    exact Nat.lt_of_lt_of_le (hmF j hj) (Nat.le_add_right _ _)
  have hdisjT : ∀ j ∈ m.tagIds, j ∉ (Copy h m).2.tagIds := by
    intro j hj hjc
    exact absurd (hcT j hjc).1 (Nat.not_le.2 (hmT j hj))
  have hdisjT2 : ∀ j ∈ (Copy h m).2.tagIds, j ∉ m.tagIds := by
    intro j hj hjm
    exact absurd (hcT j hj).1 (Nat.not_le.2 (hmT j hjm))
  have hdisjF2 : ∀ j ∈ (Copy h m).2.fieldIds, j ∉ m.fieldIds := by
    intro j hj hjm
    exact absurd (hcF j hj).1 (Nat.not_le.2 (hmF j hjm))
  refine ⟨⟨rfl, rfl, rfl, rfl, copy_tags_view h m, copy_fields_view h m⟩,
    fun key value => ?_, fun key value => ?_, fun key => ?_⟩
  · have fr := addTagIds_frame key value (Copy h m).2.tagIds (Copy h m).1
    refine ⟨?_, ?_, ?_, ?_⟩
    · refine (tagsOf_eq_of_reads fun j hj => ?_).trans hmc_tags
      exact fr.2 j (hdisjT j hj) (hmT2 j hj)
    · exact (fieldsOf_congr_cells fr.1 m).trans hmc_fields
    · have fr2 := addTagIds_frame key value m.tagIds (Copy h m).1
      exact tagsOf_eq_of_reads fun j hj =>
        fr2.2 j (hdisjT2 j hj) (hcT j hj).2
    · have fr2 := addTagIds_frame key value m.tagIds (Copy h m).1
      exact fieldsOf_congr_cells fr2.1 (Copy h m).2
  · have fr := addFieldIds_frame key value (Copy h m).2.fieldIds (Copy h m).1
    refine ⟨?_, ?_, ?_, ?_⟩
    · exact (tagsOf_congr_cells fr.1 m).trans hmc_tags
    · rcases fr.2 with ⟨ex, hex⟩
      refine (fieldsOf_eq_of_reads fun j hj => ?_).trans hmc_fields
      show (addFieldIds (Copy h m).1 key value
        (Copy h m).2.fieldIds).1.fieldCells.getD j _ = _
      rw [hex]
      exact getD_append_lt _ ex _ j (hmF2 j hj)
    · have fr2 := addFieldIds_frame key value m.fieldIds (Copy h m).1
      exact tagsOf_congr_cells fr2.1 (Copy h m).2
    · have fr2 := addFieldIds_frame key value m.fieldIds (Copy h m).1
      rcases fr2.2 with ⟨ex, hex⟩
      refine fieldsOf_eq_of_reads fun j hj => ?_
      show (addFieldIds (Copy h m).1 key value m.fieldIds).1.fieldCells.getD j _ = _
      rw [hex]
      exact getD_append_lt _ ex _ j (hcF j hj).2
  · exact ⟨hmc_tags, hmc_fields, hmc_tags, hmc_fields, rfl, rfl, rfl, rfl⟩

/-- Witness for C5 at a concrete heap: one metric with one tag and one field,
copied; overwriting the copied tag through AddTag on the copy leaves the
original's view intact, and symmetrically for the original. -/
theorem copy_deep_independence_witness :
    tagsOf
      (AddTag
        (Copy ⟨[⟨[1], [2]⟩], [⟨[3], some (GoFloat.ofInt 5)⟩]⟩
          ⟨[7], [0], [0], 0, .Untyped, false⟩).1
        (Copy ⟨[⟨[1], [2]⟩], [⟨[3], some (GoFloat.ofInt 5)⟩]⟩
          ⟨[7], [0], [0], 0, .Untyped, false⟩).2 [1] [9]).1
      ⟨[7], [0], [0], 0, .Untyped, false⟩
      = tagsOf ⟨[⟨[1], [2]⟩], [⟨[3], some (GoFloat.ofInt 5)⟩]⟩
        ⟨[7], [0], [0], 0, .Untyped, false⟩ := by
  have h := copy_deep_independence ⟨[⟨[1], [2]⟩], [⟨[3], some (GoFloat.ofInt 5)⟩]⟩
    ⟨[7], [0], [0], 0, .Untyped, false⟩ (by decide) _ _ rfl
  exact (h.2.1 [1] [9]).1

end Ref

end Prober
